import Mathlib

/-!
Verification of the tcardgen text-layout core (canvas drawing, BudoX-based
segmentation, greedy line packing, box-chip layout) and of the Hugo
front-matter parser, as a shallow embedding in Lean 4.

Strings are embedded as lists of runes (`List Char`), matching the rune-level
operations of the Go source (`[]rune`, `strings.TrimLeftFunc`,
`strings.TrimRightFunc`, `range` over strings).  Fixed-point font units
(`fixed.Int26_6`) are embedded as naturals counting 1/64 pixel, with
`fixed.I(x) = 64 * x` and rounding `(w + 32) / 64`.  Font faces are embedded
kern-free: a face supplies a per-rune advance, and
`font.Drawer.MeasureString` is the sum of the advances.  The pixel buffer is
embedded as the trace of draw commands issued to it, which records exactly
which strings are painted where and which rectangles are filled.
-/

/-- Rune strings: the Go source operates on runes throughout. -/
abbrev Str := List Char

/-- Embeds unicode.IsSpace on runes. -/
def isSpaceChar (c : Char) : Bool := c.isWhitespace

/-- Embeds strings.TrimLeftFunc(s, unicode.IsSpace). -/
def trimLeft (s : Str) : Str := s.dropWhile isSpaceChar

/-- Embeds strings.TrimRightFunc(s, unicode.IsSpace). -/
def trimRight (s : Str) : Str := s.rdropWhile isSpaceChar

/-- Removes every whitespace rune; used to state that only whitespace may be
lost at line boundaries. -/
def stripSpaces (s : Str) : Str := s.filter (fun c => !isSpaceChar c)

/-- Embeds font.Drawer.MeasureString for a kern-free face with per-rune
advance `adv`, in 1/64 pixel units. -/
def measureString (adv : Char → Nat) (s : Str) : Nat := (s.map adv).sum

/-- Embeds fixed.Int26_6.Round for non-negative values: (x + 32) >> 6. -/
def roundFx (w : Nat) : Nat := (w + 32) / 64

/-! ## Segmenter (pkg/text, segmentation levels)

The BudoX parser itself is an external library
(github.com/soundkitchen/budoux); it is embedded as a parameter
`parse : Str → List Str`.  Properties that depend on the tokenizer only ever
assume that its segments concatenate back to the input. -/

/-- SegmentationLevel represents the granularity of text segmentation. -/
inductive SegmentationLevel where
  | defaultLevel
  | fineLevel
  | ultraFineLevel
deriving DecidableEq

/-- Embeds splitLongSegment: chunks of `maxLength` runes, last chunk shorter.
The Go loop does not terminate for maxLength = 0; it is only ever called with
6 and 3, and the embedding returns [] on that dead branch. -/
def splitLongSegment (seg : Str) (maxLength : Nat) : List Str :=
  if _hm : maxLength = 0 then []
  else if _hs : seg = [] then []
  else seg.take maxLength :: splitLongSegment (seg.drop maxLength) maxLength
termination_by seg.length
decreasing_by
  simp only [List.length_drop]
  cases seg with
  | nil => exact absurd rfl _hs
  | cons a l => cases maxLength with
    | zero => exact absurd rfl _hm
    | succ m => simp; omega

/-- Embeds applyFineSegmentation: splits segments longer than 6 runes. -/
def applyFineSegmentation (segments : List Str) : List Str :=
  segments.flatMap
    (fun segment =>
      if segment.length > 6 then splitLongSegment segment 6 else [segment])

/-- Embeds applyUltraFineSegmentation: splits segments longer than 3 runes. -/
def applyUltraFineSegmentation (segments : List Str) : List Str :=
  segments.flatMap
    (fun segment =>
      if segment.length > 3 then splitLongSegment segment 3 else [segment])

/-- Embeds SegmentForLineBreaksWithLevel: BudoX parse, drop empty segments,
then optional finer granularity. -/
def segmentForLineBreaksWithLevel (parse : Str → List Str) (text : Str)
    (level : SegmentationLevel) : List Str :=
  if text = [] then []
  else
    let result := (parse text).filter (fun s => !s.isEmpty)
    match level with
    | .fineLevel => applyFineSegmentation result
    | .ultraFineLevel => applyUltraFineSegmentation result
    | .defaultLevel => result

/-- Embeds SegmentForLineBreaks (default level). -/
def segmentForLineBreaks (parse : Str → List Str) (text : Str) : List Str :=
  segmentForLineBreaksWithLevel parse text .defaultLevel

/-! ## Canvas data model (pkg/canvas)

The pixel buffer is embedded as the trace of drawing commands issued to it:
a text run painted at the drawing dot, or a rectangle filled with the
background color.  Colors are abstract identifiers; option errors are
abstract strings. -/

/-- Colors stand in for *image.Uniform values. -/
abbrev Color := Nat

/-- Error values returned by failing configuration options. -/
abbrev Err := String

/-- Modelled from the spec: config.Padding (file not under src/), the
four-sided box padding in pixels. -/
structure Padding where
  top : Int
  right : Int
  bottom : Int
  left : Int
deriving DecidableEq

/-- Modelled from the spec: config.Point (file not under src/), a pixel
position. -/
structure Point where
  x : Int
  y : Int
deriving DecidableEq

/-- Modelled from the spec: box.Align (file not under src/), the chip
alignment, left or right. -/
inductive BoxAlign where
  | left
  | right
deriving DecidableEq

/-- Rectangles in pixel coordinates (image.Rectangle). -/
structure Rect where
  minX : Int
  minY : Int
  maxX : Int
  maxY : Int
deriving DecidableEq

/-- Embeds image.Rectangle.Empty. -/
def Rect.isEmpty (r : Rect) : Bool := r.maxX ≤ r.minX || r.maxY ≤ r.minY

/-- Embeds image.Rectangle.Overlaps: both rectangles non-empty and the two
open spans intersect on both axes. -/
def Rect.overlaps (r s : Rect) : Bool :=
  !r.isEmpty && !s.isEmpty &&
    r.minX < s.maxX && s.minX < r.maxX && r.minY < s.maxY && s.minY < r.maxY

/-- One drawing command recorded against the pixel buffer. -/
inductive DrawCmd where
  /-- Embeds font.Drawer.DrawString of `s` with the dot at `(x, y)` in 26.6
  units. -/
  | text (s : Str) (x y : Int)
  /-- Embeds draw.Draw of the background color over a rectangle. -/
  | fill (r : Rect) (color : Color)
deriving DecidableEq

/-- Kern-free font face: line height and descent from Face.Metrics() in 26.6
units, and a per-rune advance in 26.6 units. -/
structure FaceM where
  height : Nat
  descent : Nat
  advance : Char → Nat

/-- Embeds the Canvas struct plus the font.Drawer it owns: `dst` is the trace
of commands issued against the pixel buffer, `src`/`dotX`/`dotY` are the
Drawer foreground and dot, and the remaining fields are the style state. -/
structure Canvas where
  dst : List DrawCmd
  face : FaceM
  src : Color
  dotX : Int
  dotY : Int
  bgColor : Color
  maxWidth : Int
  lineSpace : Int
  boxPadding : Padding
  boxSpace : Int
  boxAlign : BoxAlign

/-- Embeds font.Drawer.DrawString: paints `s` at the current dot and
advances the dot x by the measured advance of `s`. -/
def Canvas.drawString (c : Canvas) (s : Str) : Canvas :=
  { c with
    dst := c.dst ++ [DrawCmd.text s c.dotX c.dotY]
    dotX := c.dotX + (measureString c.face.advance s : Int) }

/-- Text runs painted in a command trace, in order. -/
def textsOf (l : List DrawCmd) : List Str :=
  l.filterMap (fun cmd => match cmd with | .text s _ _ => some s | _ => none)

/-- Rectangles filled in a command trace, in order. -/
def fillRects (l : List DrawCmd) : List Rect :=
  l.filterMap (fun cmd => match cmd with | .fill r _ => some r | _ => none)

/-! ## Multi-line drawing (Canvas.drawMultiLineTextWithBudoX)

The loop body is split into the emission of a finished line (the
`lineBuf.Len() > 0` block of the else branch), the processing of one segment,
and the final flush performed on the last iteration.  A pure mirror
(`packLoop`) of the same loop computes just the emitted line strings and is
proved to agree with the drawing loop. -/

/-- Embeds the else-branch block of drawMultiLineTextWithBudoX that draws the
current line buffer: right-trim, draw if non-empty, reset the dot x to the
line start and advance y by line height plus line spacing. -/
def emitLine (c : Canvas) (x : Int) (buf : Str) : Canvas :=
  if buf = [] then c
  else
    let lineContent := trimRight buf
    if lineContent = [] then c
    else
      let c' := c.drawString lineContent
      { c' with
        dotX := x
        dotY := c'.dotY + (c.face.height : Int) + 64 * c.lineSpace }

/-- Embeds the final flush of drawMultiLineTextWithBudoX on the last
iteration: right-trim the remaining buffer and draw it if non-empty. -/
def flushFinal (c : Canvas) (buf : Str) : Canvas :=
  if buf = [] then c
  else
    let lineContent := trimRight buf
    if lineContent = [] then c else c.drawString lineContent

/-- Embeds one iteration of drawMultiLineTextWithBudoX for a non-empty
segment: try the segment on the current line; on overflow emit the current
line and restart the buffer from the left-trimmed segment. -/
def dmlStep (c : Canvas) (x : Int) (buf seg : Str) : Canvas × Str :=
  if (measureString c.face.advance (buf ++ seg) : Int) ≤ 64 * c.maxWidth then
    (c, buf ++ seg)
  else
    (emitLine c x buf, trimLeft seg)

/-- Embeds the segment loop of drawMultiLineTextWithBudoX.  Empty segments
are skipped; the final flush runs inside the last iteration, so a trailing
empty segment skips it. -/
def dmlLoop (c : Canvas) (x : Int) (buf : Str) : List Str → Canvas
  | [] => c
  | seg :: rest =>
    if seg = [] then dmlLoop c x buf rest
    else
      let p := dmlStep c x buf seg
      match rest with
      | [] => flushFinal p.1 p.2
      | _ :: _ => dmlLoop p.1 x p.2 rest

/-- Embeds Canvas.drawMultiLineTextWithBudoX: segment the text with BudoX
(parameter `parse`) and run the packing loop from the current dot. -/
def drawMultiLineTextWithBudoX (parse : Str → List Str) (c : Canvas)
    (textStr : Str) : Canvas :=
  dmlLoop c c.dotX [] (segmentForLineBreaks parse textStr)

/-- Pure mirror of emitLine / flushFinal: the lines they draw. -/
def packFlush (buf : Str) : List Str :=
  if buf = [] then []
  else
    let lineContent := trimRight buf
    if lineContent = [] then [] else [lineContent]

/-- Pure mirror of dmlStep: emitted lines and the next buffer. -/
def packStep (adv : Char → Nat) (maxW : Int) (buf seg : Str) :
    List Str × Str :=
  if (measureString adv (buf ++ seg) : Int) ≤ 64 * maxW then
    ([], buf ++ seg)
  else
    (packFlush buf, trimLeft seg)

/-- Pure mirror of dmlLoop: the ordered list of line strings the loop
draws. -/
def packLoop (adv : Char → Nat) (maxW : Int) (buf : Str) :
    List Str → List Str
  | [] => []
  | seg :: rest =>
    if seg = [] then packLoop adv maxW buf rest
    else
      let p := packStep adv maxW buf seg
      match rest with
      | [] => p.1 ++ packFlush p.2
      | _ :: _ => p.1 ++ packLoop adv maxW p.2 rest

/-! ## Style options and the two draw entry points

Go options are closures `func(*Canvas) error` that either set a style field
and return nil, or fail without touching the canvas.  The two fallible
options wrap external computations (fontfamily.NewFace, and the Hex color
parser, whose file is not under src/): the constructors carry the outcome of
that external computation. -/

/-- Embeds textDrawOption.  fontFaceFromFFA carries the outcome of
ffa.NewFace(style, size) (fontfamily package not under src/); fgHexColor and
bgHexColor carry the outcome of Hex(hex).  Modelled from the spec: Hex parses
a hex string and fails on malformed input (InvalidColorFormat); its file is
not under src/, so the parse outcome is the constructor argument. -/
inductive TextDrawOption where
  | fontFace (ff : FaceM)
  | fontFaceFromFFA (res : Except Err FaceM)
  | fgColor (color : Color)
  | bgColor (color : Color)
  | fgHexColor (res : Except Err Color)
  | bgHexColor (res : Except Err Color)
  | maxWidth (m : Int)
  | lineSpacing (px : Int)
  | boxPadding (bp : Padding)
  | boxSpacing (px : Int)
  | boxAlign (align : BoxAlign)

/-- Embeds applying one textDrawOption to the canvas: each option sets
exactly one style field; a failing option returns its error without touching
the canvas. -/
def applyOpt (o : TextDrawOption) (c : Canvas) : Except Err Canvas :=
  match o with
  | .fontFace ff => .ok { c with face := ff }
  | .fontFaceFromFFA res =>
    match res with
    | .ok ff => .ok { c with face := ff }
    | .error e => .error e
  | .fgColor color => .ok { c with src := color }
  | .bgColor color => .ok { c with bgColor := color }
  | .fgHexColor res =>
    match res with
    | .ok color => .ok { c with src := color }
    | .error e => .error e
  | .bgHexColor res =>
    match res with
    | .ok color => .ok { c with bgColor := color }
    | .error e => .error e
  | .maxWidth m => .ok { c with maxWidth := m }
  | .lineSpacing px => .ok { c with lineSpace := px }
  | .boxPadding bp => .ok { c with boxPadding := bp }
  | .boxSpacing px => .ok { c with boxSpace := px }
  | .boxAlign align => .ok { c with boxAlign := align }

/-- Embeds the option loop at the head of DrawTextAtPoint and DrawBoxTexts:
apply options in order, stopping at the first failure.  The result is the
canvas after the applied options together with the error, if any. -/
def applyOpts : List TextDrawOption → Canvas → Canvas × Option Err
  | [], c => (c, none)
  | o :: os, c =>
    match applyOpt o c with
    | .ok c' => applyOpts os c'
    | .error e => (c, some e)

/-- Embeds Canvas.DrawTextAtPoint: apply options (abort on failure), set the
dot to the baseline below the start point, then draw a single run when no max
width is set, else draw multi-line via BudoX. -/
def drawTextAtPoint (parse : Str → List Str) (c : Canvas) (text : Str)
    (start : Point) (opts : List TextDrawOption) : Canvas × Option Err :=
  match applyOpts opts c with
  | (c1, some e) => (c1, some e)
  | (c1, none) =>
    let c2 := { c1 with
                dotY := 64 * start.y + (c1.face.height : Int)
                dotX := 64 * start.x }
    if c2.maxWidth = 0 then (c2.drawString text, none)
    else (drawMultiLineTextWithBudoX parse c2 text, none)

/-- Embeds the chip loop of DrawBoxTexts: for each text, fill the chip
rectangle with the background color, draw the text inside the padding, and
advance x past the chip plus the box spacing. -/
def boxLoop (c : Canvas) (pX startY rMinY rMaxY : Int) :
    List Str → Canvas
  | [] => c
  | s :: rest =>
    let fw := measureString c.face.advance s
    let maxX := pX + (roundFx fw : Int) + c.boxPadding.left + c.boxPadding.right
    let rect : Rect := ⟨pX, rMinY, maxX, rMaxY⟩
    let c1 := { c with dst := c.dst ++ [DrawCmd.fill rect c.bgColor] }
    let c2 := { c1 with
                dotX := 64 * (pX + c.boxPadding.left)
                dotY := 64 * (startY + c.boxPadding.top - 1) + (c.face.height : Int) }
    let c3 := c2.drawString s
    boxLoop c3 (maxX + c.boxSpace) startY rMinY rMaxY rest

/-- Embeds the body of DrawBoxTexts after the options: pre-shift the start x
for right alignment by padding, spacing and the rounded measure of the
concatenated texts, build the chip rectangle vertical span (image.Rect
canonicalizes the y coordinates), and run the chip loop. -/
def drawBoxTextsCore (c : Canvas) (texts : List Str) (start : Point) :
    Canvas :=
  let n : Int := texts.length
  let pX0 : Int :=
    if c.boxAlign = BoxAlign.right then
      start.x - (c.boxPadding.left * n + c.boxPadding.right * n
        + c.boxSpace * (n - 1)
        + (roundFx (measureString c.face.advance texts.flatten) : Int))
    else start.x
  let yHi := start.y + (roundFx c.face.height : Int) + c.boxPadding.top
    + c.boxPadding.bottom + (roundFx c.face.descent : Int)
  boxLoop c pX0 start.y (min start.y yHi) (max start.y yHi) texts

/-- Embeds Canvas.DrawBoxTexts: apply options (abort on failure) then lay
out and paint the chips. -/
def drawBoxTexts (c : Canvas) (texts : List Str) (start : Point)
    (opts : List TextDrawOption) : Canvas × Option Err :=
  match applyOpts opts c with
  | (c1, some e) => (c1, some e)
  | (c1, none) => (drawBoxTextsCore c1 texts start, none)

/-- Chip rectangle layout of the DrawBoxTexts loop, as a pure recurrence:
each chip occupies the rounded measured width plus horizontal padding, and
the next chip starts past it plus the box spacing. -/
def rectsFrom (adv : Char → Nat) (padL padR space rMinY rMaxY : Int) :
    Int → List Str → List Rect
  | _, [] => []
  | pX, s :: rest =>
    let maxX := pX + (roundFx (measureString adv s) : Int) + padL + padR
    ⟨pX, rMinY, maxX, rMaxY⟩ ::
      rectsFrom adv padL padR space rMinY rMaxY (maxX + space) rest

/-! ## Hugo front-matter parsing (pkg/hugo/frontmatter.go)

pageparser.ParseFrontMatterAndContent is external; the embedding takes the
already-parsed front-matter map (an association list from keys to dynamic
values).  time.Time values are abstract natural timestamps; time.Parse over
the two supported layouts is a parameter `parseTimeFmt` returning the parsed
timestamp when some layout succeeds; runewidth.RuneWidth is a parameter
`rw`. -/

/-- Dynamic values found in the front-matter map (interface values in Go):
strings, times, arrays, or anything else. -/
inductive FMVal where
  | str (s : String)
  | time (t : Nat)
  | arr (items : List FMVal)
  | other

/-- Parsed front matter map. -/
abbrev CFM := List (String × FMVal)

/-- Embeds the Go map lookup cfm.FrontMatter[key]. -/
def fmLookup (cfm : CFM) (key : String) : Option FMVal :=
  match cfm with
  | [] => none
  | (k, v) :: rest => if k = key then some v else fmLookup rest key

/-- Error values of the front-matter parser: FMNotExistError,
FMInvalidTypeError, and the plain time-parse failure. -/
inductive FMErr where
  | notExist (key : String)
  | invalidType (key : String)
  | timeParseFailed (value : String)
deriving DecidableEq

/-- Embeds the FrontMatter record. -/
structure FrontMatter where
  title : String
  authors : String
  category : String
  tags : List String
  date : Nat
deriving DecidableEq

/-- Embeds the rune loop of makeFixedWidthString: accumulate runes while the
total display width stays within the budget, else append an ellipsis and
stop. -/
def makeFixedWidthGo (rw : Char → Nat) (length : Nat) :
    List Char → Nat → List Char
  | [], _ => []
  | ch :: rest, l =>
    if l + rw ch > length then ['.', '.', '.']
    else ch :: makeFixedWidthGo rw length rest (l + rw ch)

/-- Embeds makeFixedWidthString. -/
def makeFixedWidthString (rw : Char → Nat) (str : String) (length : Nat) :
    String := ⟨makeFixedWidthGo rw length str.data 0⟩

/-- Embeds getString: missing or empty values are FMNotExistError, string
values are width-truncated to 89, other values are FMInvalidTypeError. -/
def getString (rw : Char → Nat) (cfm : CFM) (fmKey : String) :
    Except FMErr String :=
  match fmLookup cfm fmKey with
  | none => .error (.notExist fmKey)
  | some (.str s) =>
    if s = "" then .error (.notExist fmKey)
    else .ok (makeFixedWidthString rw s 89)
  | some _ => .error (.invalidType fmKey)

/-- Embeds the item loop of getAllStringItems: collect non-empty strings in
order, failing on the first non-string item. -/
def collectStringItems (fmKey : String) :
    List FMVal → Except FMErr (List String)
  | [] => .ok []
  | .str s :: rest =>
    match collectStringItems fmKey rest with
    | .error e => .error e
    | .ok r => .ok (if s = "" then r else s :: r)
  | _ :: _ => .error (.invalidType fmKey)

/-- Embeds getAllStringItems. -/
def getAllStringItems (cfm : CFM) (fmKey : String) :
    Except FMErr (List String) :=
  match fmLookup cfm fmKey with
  | none => .error (.notExist fmKey)
  | some (.arr items) =>
    match collectStringItems fmKey items with
    | .error e => .error e
    | .ok strarr =>
      if strarr.length < 1 then .error (.notExist fmKey) else .ok strarr
  | some _ => .error (.invalidType fmKey)

/-- Embeds getAuthorsString. -/
def getAuthorsString (cfm : CFM) (fmKey : String) : Except FMErr String :=
  match getAllStringItems cfm fmKey with
  | .error e => .error e
  | .ok arr =>
    if arr.length > 1 then
      if arr.length > 2 then .ok ((arr.headD "") ++ " et al.")
      else .ok (String.intercalate ", " arr)
    else .ok (arr.headD "")

/-- Embeds getConcatenatedStringItem. -/
def getConcatenatedStringItem (cfm : CFM) (fmKey : String) (numItems : Nat) :
    Except FMErr String :=
  match getAllStringItems cfm fmKey with
  | .error e => .error e
  | .ok arr =>
    if arr.length > 2 then
      .ok (String.intercalate ", " (arr.take numItems) ++ " ...")
    else .ok (String.intercalate ", " arr)

/-- Embeds getTags. -/
def getTags (cfm : CFM) (fmKey : String) : Except FMErr (List String) :=
  match getAllStringItems cfm fmKey with
  | .error e => .error e
  | .ok arr =>
    if arr.length > 3 then .ok (arr.take 3 ++ ["..."]) else .ok arr

/-- Embeds isArray. -/
def isArray (cfm : CFM) (fmKey : String) : Bool :=
  match fmLookup cfm fmKey with
  | some (.arr _) => true
  | _ => false

/-- Embeds getTime: a missing key is FMNotExistError, a string value is
parsed against the supported layouts (failure is a plain error), a time
value is returned, anything else is FMInvalidTypeError. -/
def getTime (parseTimeFmt : String → Option Nat) (cfm : CFM) (fmKey : String)
    (currentTime : Nat) : Nat × Option FMErr :=
  match fmLookup cfm fmKey with
  | none => (currentTime, some (.notExist fmKey))
  | some (.str tstr) =>
    match parseTimeFmt tstr with
    | some t => (t, none)
    | none => (currentTime, some (.timeParseFailed tstr))
  | some (.time t) => (t, none)
  | some _ => (currentTime, some (.invalidType fmKey))

/-- Embeds the key loop of getContentDate: first key whose getTime result is
not an FMNotExistError wins; when all three keys are absent the supplied
current time is returned with an FMNotExistError naming all keys. -/
def getContentDateLoop (parseTimeFmt : String → Option Nat) (cfm : CFM)
    (currentTime : Nat) : List String → Nat × Option FMErr
  | [] => (currentTime, some (.notExist "date, lastmod, publishDate"))
  | key :: keys =>
    match getTime parseTimeFmt cfm key currentTime with
    | (_, some (.notExist _)) =>
      getContentDateLoop parseTimeFmt cfm currentTime keys
    | r => r

/-- Embeds getContentDate over the priority keys date, lastmod,
publishDate. -/
def getContentDate (parseTimeFmt : String → Option Nat) (cfm : CFM)
    (currentTime : Nat) : Nat × Option FMErr :=
  getContentDateLoop parseTimeFmt cfm currentTime
    ["date", "lastmod", "publishDate"]

/-- Embeds parseFrontMatter on a parsed front-matter map: extract title,
authors, category and tags (each failure aborts), then the date; a missing
date key is non-fatal and only logs a warning, any other date error aborts.
The result carries the list of warnings written to the writer. -/
def parseFrontMatter (rw : Char → Nat) (parseTimeFmt : String → Option Nat)
    (cfm : CFM) (currentTime : Nat) :
    Except FMErr (FrontMatter × List FMErr) :=
  match getString rw cfm "title" with
  | .error e => .error e
  | .ok title =>
    match
      (if isArray cfm "authors" then getAuthorsString cfm "authors"
       else getString rw cfm "authors") with
    | .error e => .error e
    | .ok authors =>
      match getConcatenatedStringItem cfm "categories" 2 with
      | .error e => .error e
      | .ok category =>
        match getTags cfm "tags" with
        | .error e => .error e
        | .ok tags =>
          match getContentDate parseTimeFmt cfm currentTime with
          | (t, none) => .ok (⟨title, authors, category, tags, t⟩, [])
          | (t, some err) =>
            match err with
            | .notExist k =>
              .ok (⟨title, authors, category, tags, t⟩, [.notExist k])
            | _ => .error err

/-! ## Basic lemmas about trimming, measuring and stripping -/

theorem trimLeft_sublist (s : Str) : List.Sublist (trimLeft s) s :=
  List.dropWhile_sublist isSpaceChar

theorem trimRight_sublist (s : Str) : List.Sublist (trimRight s) s :=
  (List.rdropWhile_prefix isSpaceChar s).sublist

theorem measureString_append (adv : Char → Nat) (a b : Str) :
    measureString adv (a ++ b) = measureString adv a + measureString adv b := by
  simp [measureString]

theorem measureString_sublist_le (adv : Char → Nat) {a b : Str}
    (h : List.Sublist a b) : measureString adv a ≤ measureString adv b := by
  induction h with
  | slnil => exact Nat.le_refl _
  | cons x _ ih =>
    simp only [measureString, List.map_cons, List.sum_cons] at *
    omega
  | cons₂ x _ ih =>
    simp only [measureString, List.map_cons, List.sum_cons] at *
    omega

theorem measureString_trimLeft_le (adv : Char → Nat) (s : Str) :
    measureString adv (trimLeft s) ≤ measureString adv s :=
  measureString_sublist_le adv (trimLeft_sublist s)

theorem measureString_trimRight_le (adv : Char → Nat) (s : Str) :
    measureString adv (trimRight s) ≤ measureString adv s :=
  measureString_sublist_le adv (trimRight_sublist s)

theorem stripSpaces_append (a b : Str) :
    stripSpaces (a ++ b) = stripSpaces a ++ stripSpaces b := by
  simp [stripSpaces]

theorem stripSpaces_dropWhile (s : Str) :
    stripSpaces (s.dropWhile isSpaceChar) = stripSpaces s := by
  induction s with
  | nil => rfl
  | cons c cs ih =>
    simp only [List.dropWhile_cons]
    by_cases h : isSpaceChar c = true
    · rw [if_pos h, ih]
      simp [stripSpaces, List.filter_cons, h]
    · rw [if_neg h]

theorem stripSpaces_reverse (s : Str) :
    stripSpaces s.reverse = (stripSpaces s).reverse := by
  simp [stripSpaces]

theorem stripSpaces_trimLeft (s : Str) :
    stripSpaces (trimLeft s) = stripSpaces s :=
  stripSpaces_dropWhile s

theorem stripSpaces_trimRight (s : Str) :
    stripSpaces (trimRight s) = stripSpaces s := by
  have h1 : stripSpaces (trimRight s)
      = (stripSpaces (s.reverse.dropWhile isSpaceChar)).reverse := by
    rw [trimRight, List.rdropWhile, stripSpaces_reverse]
  rw [h1, stripSpaces_dropWhile, stripSpaces_reverse, List.reverse_reverse]

theorem trimLeft_eq_nil_iff {s : Str} :
    trimLeft s = [] ↔ ∀ c ∈ s, isSpaceChar c := by
  simp [trimLeft, List.dropWhile_eq_nil_iff]

theorem trimRight_eq_nil_iff {s : Str} :
    trimRight s = [] ↔ ∀ c ∈ s, isSpaceChar c := by
  simp [trimRight]

theorem trimRight_trimLeft_ne_nil {s : Str} (h : trimLeft s ≠ []) :
    trimRight (trimLeft s) ≠ [] := by
  intro hnil
  rw [trimRight_eq_nil_iff] at hnil
  have hne : List.dropWhile isSpaceChar s ≠ [] := h
  have hd := List.head_dropWhile_not isSpaceChar s hne
  have hmem : (List.dropWhile isSpaceChar s).head hne ∈ trimLeft s :=
    List.head_mem hne
  have htrue := hnil _ hmem
  rw [htrue] at hd
  exact absurd hd (by simp)

theorem stripSpaces_eq_nil_of_all_space {s : Str}
    (h : ∀ c ∈ s, isSpaceChar c) : stripSpaces s = [] := by
  simp only [stripSpaces, List.filter_eq_nil_iff]
  intro c hc
  simp [h c hc]

theorem measureString_flatten (adv : Char → Nat) (L : List Str) :
    measureString adv L.flatten = (L.map (measureString adv)).sum := by
  induction L with
  | nil => rfl
  | cons a L ih => simp [measureString_append, ih]

/-! ## Lemmas about segment chunking (fine and ultra-fine granularity) -/

theorem splitLongSegment_nil (m : Nat) : splitLongSegment [] m = [] := by
  rw [splitLongSegment]
  simp

theorem splitLongSegment_eq (seg : Str) (m : Nat) (hm : m ≠ 0)
    (hs : seg ≠ []) :
    splitLongSegment seg m
      = seg.take m :: splitLongSegment (seg.drop m) m := by
  rw [splitLongSegment, dif_neg hm, dif_neg hs]

theorem splitLongSegment_flatten_fuel (m : Nat) (hm : m ≠ 0) :
    ∀ (n : Nat) (seg : Str), seg.length ≤ n →
      (splitLongSegment seg m).flatten = seg := by
  intro n
  induction n with
  | zero =>
    intro seg hlen
    have : seg = [] := List.length_eq_zero.mp (Nat.le_zero.mp hlen)
    subst this
    simp [splitLongSegment_nil]
  | succ n ih =>
    intro seg hlen
    by_cases hs : seg = []
    · subst hs; simp [splitLongSegment_nil]
    · rw [splitLongSegment_eq seg m hm hs]
      have hpos : 0 < seg.length := List.length_pos.mpr hs
      have hdrop : (seg.drop m).length ≤ n := by
        simp only [List.length_drop]
        omega
      simp [ih (seg.drop m) hdrop]

theorem splitLongSegment_flatten (seg : Str) (m : Nat) (hm : m ≠ 0) :
    (splitLongSegment seg m).flatten = seg :=
  splitLongSegment_flatten_fuel m hm seg.length seg (Nat.le_refl _)

theorem splitLongSegment_length_fuel (m : Nat) (hm : m ≠ 0) :
    ∀ (n : Nat) (seg : Str), seg.length ≤ n → seg ≠ [] →
      (splitLongSegment seg m).length = (seg.length + m - 1) / m := by
  intro n
  induction n with
  | zero =>
    intro seg hlen hs
    exact absurd (List.length_eq_zero.mp (Nat.le_zero.mp hlen)) hs
  | succ n ih =>
    intro seg hlen hs
    rw [splitLongSegment_eq seg m hm hs]
    have hpos : 0 < seg.length := List.length_pos.mpr hs
    by_cases hle : seg.length ≤ m
    · have hdrop : seg.drop m = [] := by
        rw [List.drop_eq_nil_iff]
        omega
      rw [hdrop, splitLongSegment_nil]
      have h1 : 1 * m ≤ seg.length + m - 1 := by omega
      have h2 : seg.length + m - 1 < (1 + 1) * m := by omega
      simp [Nat.div_eq_of_lt_le h1 h2]
    · have hdne : seg.drop m ≠ [] := by
        rw [Ne, List.drop_eq_nil_iff]
        omega
      have hdrop : (seg.drop m).length ≤ n := by
        simp only [List.length_drop]
        omega
      rw [List.length_cons, ih (seg.drop m) hdrop hdne]
      simp only [List.length_drop]
      have hrw : seg.length + m - 1 = (seg.length - m + m - 1) + m := by omega
      rw [hrw, Nat.add_div_right _ (Nat.pos_of_ne_zero hm)]

theorem splitLongSegment_length (seg : Str) (m : Nat) (hm : m ≠ 0)
    (hs : seg ≠ []) :
    (splitLongSegment seg m).length = (seg.length + m - 1) / m :=
  splitLongSegment_length_fuel m hm seg.length seg (Nat.le_refl _) hs

theorem splitLongSegment_chunk_le_fuel (m : Nat) (hm : m ≠ 0) :
    ∀ (n : Nat) (seg : Str), seg.length ≤ n →
      ∀ c ∈ splitLongSegment seg m, c.length ≤ m := by
  intro n
  induction n with
  | zero =>
    intro seg hlen c hc
    have : seg = [] := List.length_eq_zero.mp (Nat.le_zero.mp hlen)
    subst this
    rw [splitLongSegment_nil] at hc
    exact absurd hc (List.not_mem_nil c)
  | succ n ih =>
    intro seg hlen c hc
    by_cases hs : seg = []
    · subst hs
      rw [splitLongSegment_nil] at hc
      exact absurd hc (List.not_mem_nil c)
    · rw [splitLongSegment_eq seg m hm hs] at hc
      rcases List.mem_cons.mp hc with h | h
      · subst h
        simp [List.length_take]
      · have hdrop : (seg.drop m).length ≤ n := by
          have hpos : 0 < seg.length := List.length_pos.mpr hs
          simp only [List.length_drop]
          omega
        exact ih (seg.drop m) hdrop c h

theorem splitLongSegment_chunk_le (seg : Str) (m : Nat) (hm : m ≠ 0) :
    ∀ c ∈ splitLongSegment seg m, c.length ≤ m :=
  splitLongSegment_chunk_le_fuel m hm seg.length seg (Nat.le_refl _)

theorem splitLongSegment_ne_nil_iff (seg : Str) (m : Nat) (hm : m ≠ 0) :
    splitLongSegment seg m = [] ↔ seg = [] := by
  constructor
  · intro h
    by_contra hs
    rw [splitLongSegment_eq seg m hm hs] at h
    exact List.cons_ne_nil _ _ h
  · intro h
    subst h
    exact splitLongSegment_nil m

theorem splitLongSegment_dropLast_fuel (m : Nat) (hm : m ≠ 0) :
    ∀ (n : Nat) (seg : Str), seg.length ≤ n →
      ∀ c ∈ (splitLongSegment seg m).dropLast, c.length = m := by
  intro n
  induction n with
  | zero =>
    intro seg hlen c hc
    have : seg = [] := List.length_eq_zero.mp (Nat.le_zero.mp hlen)
    subst this
    rw [splitLongSegment_nil] at hc
    exact absurd hc (List.not_mem_nil c)
  | succ n ih =>
    intro seg hlen c hc
    by_cases hs : seg = []
    · subst hs
      rw [splitLongSegment_nil] at hc
      exact absurd hc (List.not_mem_nil c)
    · rw [splitLongSegment_eq seg m hm hs] at hc
      by_cases hd : seg.drop m = []
      · rw [hd, splitLongSegment_nil] at hc
        exact absurd hc (List.not_mem_nil c)
      · have hrest : splitLongSegment (seg.drop m) m ≠ [] := by
          rw [Ne, splitLongSegment_ne_nil_iff _ m hm]
          exact hd
        rw [List.dropLast_cons_of_ne_nil hrest] at hc
        rcases List.mem_cons.mp hc with h | h
        · subst h
          have hlong : m < seg.length := by
            by_contra hle
            exact hd (List.drop_eq_nil_iff.mpr (by omega))
          simp [List.length_take]
          omega
        · have hdrop : (seg.drop m).length ≤ n := by
            have hpos : 0 < seg.length := List.length_pos.mpr hs
            simp only [List.length_drop]
            omega
          exact ih (seg.drop m) hdrop c h

theorem splitLongSegment_dropLast (seg : Str) (m : Nat) (hm : m ≠ 0) :
    ∀ c ∈ (splitLongSegment seg m).dropLast, c.length = m :=
  splitLongSegment_dropLast_fuel m hm seg.length seg (Nat.le_refl _)

theorem applyFineSegmentation_singleton (s : Str) :
    applyFineSegmentation [s]
      = if s.length > 6 then splitLongSegment s 6 else [s] := by
  simp [applyFineSegmentation]

theorem applyUltraFineSegmentation_singleton (s : Str) :
    applyUltraFineSegmentation [s]
      = if s.length > 3 then splitLongSegment s 3 else [s] := by
  simp [applyUltraFineSegmentation]

theorem granularity_chunk_facts (s : Str) (m : Nat) (hm : m ≠ 0)
    (hs : s ≠ []) :
    (if s.length > m then splitLongSegment s m else [s]).length
        = (s.length + m - 1) / m
      ∧ (if s.length > m then splitLongSegment s m else [s]).flatten = s
      ∧ (∀ c ∈ (if s.length > m then splitLongSegment s m else [s]),
          c.length ≤ m)
      ∧ (∀ c ∈ (if s.length > m then splitLongSegment s m else [s]).dropLast,
          c.length = m) := by
  have hpos : 0 < s.length := List.length_pos.mpr hs
  by_cases hlong : s.length > m
  · rw [if_pos hlong]
    refine ⟨splitLongSegment_length s m hm hs, splitLongSegment_flatten s m hm,
      splitLongSegment_chunk_le s m hm, splitLongSegment_dropLast s m hm⟩
  · rw [if_neg hlong]
    have h1 : 1 * m ≤ s.length + m - 1 := by omega
    have h2 : s.length + m - 1 < (1 + 1) * m := by omega
    refine ⟨by simp [Nat.div_eq_of_lt_le h1 h2], by simp, ?_, by simp⟩
    intro c hc
    rcases List.mem_singleton.mp hc with rfl
    omega

/-! ## The drawing loop draws exactly the lines computed by the pure packer -/

theorem drawString_face (c : Canvas) (s : Str) :
    (c.drawString s).face = c.face := rfl

theorem drawString_maxWidth (c : Canvas) (s : Str) :
    (c.drawString s).maxWidth = c.maxWidth := rfl

theorem drawString_dst (c : Canvas) (s : Str) :
    (c.drawString s).dst = c.dst ++ [DrawCmd.text s c.dotX c.dotY] := rfl

theorem textsOf_append (a b : List DrawCmd) :
    textsOf (a ++ b) = textsOf a ++ textsOf b := by
  simp [textsOf]

theorem textsOf_text (s : Str) (x y : Int) :
    textsOf [DrawCmd.text s x y] = [s] := rfl

theorem emitLine_face (c : Canvas) (x : Int) (buf : Str) :
    (emitLine c x buf).face = c.face := by
  simp only [emitLine, Canvas.drawString]
  split
  · rfl
  · split <;> rfl

theorem emitLine_maxWidth (c : Canvas) (x : Int) (buf : Str) :
    (emitLine c x buf).maxWidth = c.maxWidth := by
  simp only [emitLine, Canvas.drawString]
  split
  · rfl
  · split <;> rfl

theorem emitLine_textsOf (c : Canvas) (x : Int) (buf : Str) :
    textsOf (emitLine c x buf).dst = textsOf c.dst ++ packFlush buf := by
  simp only [emitLine, packFlush, Canvas.drawString]
  split
  · simp
  · split
    · simp
    · simp [textsOf_append, textsOf_text]

theorem flushFinal_textsOf (c : Canvas) (buf : Str) :
    textsOf (flushFinal c buf).dst = textsOf c.dst ++ packFlush buf := by
  simp only [flushFinal, packFlush, Canvas.drawString]
  split
  · simp
  · split
    · simp
    · simp [textsOf_append, textsOf_text]

theorem dmlStep_snd (c : Canvas) (x : Int) (buf seg : Str) :
    (dmlStep c x buf seg).2
      = (packStep c.face.advance c.maxWidth buf seg).2 := by
  by_cases h : (measureString c.face.advance (buf ++ seg) : Int)
      ≤ 64 * c.maxWidth
  · simp [dmlStep, packStep, h]
  · simp [dmlStep, packStep, h]

theorem dmlStep_face (c : Canvas) (x : Int) (buf seg : Str) :
    (dmlStep c x buf seg).1.face = c.face := by
  by_cases h : (measureString c.face.advance (buf ++ seg) : Int)
      ≤ 64 * c.maxWidth
  · simp [dmlStep, h]
  · simp [dmlStep, h, emitLine_face]

theorem dmlStep_maxWidth (c : Canvas) (x : Int) (buf seg : Str) :
    (dmlStep c x buf seg).1.maxWidth = c.maxWidth := by
  by_cases h : (measureString c.face.advance (buf ++ seg) : Int)
      ≤ 64 * c.maxWidth
  · simp [dmlStep, h]
  · simp [dmlStep, h, emitLine_maxWidth]

theorem dmlStep_textsOf (c : Canvas) (x : Int) (buf seg : Str) :
    textsOf (dmlStep c x buf seg).1.dst
      = textsOf c.dst ++ (packStep c.face.advance c.maxWidth buf seg).1 := by
  by_cases h : (measureString c.face.advance (buf ++ seg) : Int)
      ≤ 64 * c.maxWidth
  · simp [dmlStep, packStep, h]
  · simp [dmlStep, packStep, h, emitLine_textsOf]

theorem dmlLoop_nil (c : Canvas) (x : Int) (buf : Str) :
    dmlLoop c x buf [] = c := rfl

theorem dmlLoop_single (c : Canvas) (x : Int) (buf seg : Str) :
    dmlLoop c x buf [seg]
      = if seg = [] then c
        else flushFinal (dmlStep c x buf seg).1 (dmlStep c x buf seg).2 := rfl

theorem dmlLoop_cons_cons (c : Canvas) (x : Int) (buf seg r : Str)
    (t : List Str) :
    dmlLoop c x buf (seg :: r :: t)
      = if seg = [] then dmlLoop c x buf (r :: t)
        else dmlLoop (dmlStep c x buf seg).1 x (dmlStep c x buf seg).2
          (r :: t) := rfl

theorem packLoop_nil (adv : Char → Nat) (maxW : Int) (buf : Str) :
    packLoop adv maxW buf [] = [] := rfl

theorem packLoop_single (adv : Char → Nat) (maxW : Int) (buf seg : Str) :
    packLoop adv maxW buf [seg]
      = if seg = [] then []
        else (packStep adv maxW buf seg).1
          ++ packFlush (packStep adv maxW buf seg).2 := rfl

theorem packLoop_cons_cons (adv : Char → Nat) (maxW : Int) (buf seg r : Str)
    (t : List Str) :
    packLoop adv maxW buf (seg :: r :: t)
      = if seg = [] then packLoop adv maxW buf (r :: t)
        else (packStep adv maxW buf seg).1
          ++ packLoop adv maxW (packStep adv maxW buf seg).2 (r :: t) := rfl

theorem dmlLoop_textsOf (segs : List Str) :
    ∀ (c : Canvas) (x : Int) (buf : Str),
      textsOf (dmlLoop c x buf segs).dst
        = textsOf c.dst ++ packLoop c.face.advance c.maxWidth buf segs := by
  induction segs with
  | nil => intro c x buf; simp [dmlLoop_nil, packLoop_nil]
  | cons seg rest ih =>
    intro c x buf
    cases rest with
    | nil =>
      rw [dmlLoop_single, packLoop_single]
      by_cases hseg : seg = []
      · simp [hseg]
      · rw [if_neg hseg, if_neg hseg, flushFinal_textsOf, dmlStep_textsOf,
          dmlStep_snd, List.append_assoc]
    | cons r t =>
      rw [dmlLoop_cons_cons, packLoop_cons_cons]
      by_cases hseg : seg = []
      · rw [if_pos hseg, if_pos hseg]
        exact ih c x buf
      · rw [if_neg hseg, if_neg hseg, ih, dmlStep_face, dmlStep_maxWidth,
          dmlStep_textsOf, dmlStep_snd, List.append_assoc]

/-! ## Pure packer invariants -/

theorem packFlush_mem {b L : Str} (h : L ∈ packFlush b) : L = trimRight b := by
  simp only [packFlush] at h
  split at h
  · exact absurd h (List.not_mem_nil L)
  · split at h
    · exact absurd h (List.not_mem_nil L)
    · simpa using h

theorem packFlush_flatten_sublist (b : Str) :
    List.Sublist (packFlush b).flatten b := by
  simp only [packFlush]
  split
  · exact List.nil_sublist _
  · split
    · exact List.nil_sublist _
    · simpa using trimRight_sublist b

theorem stripSpaces_packFlush (b : Str) :
    stripSpaces (packFlush b).flatten = stripSpaces b := by
  by_cases h1 : b = []
  · simp [packFlush, h1]
  · by_cases h2 : trimRight b = []
    · have hall := stripSpaces_eq_nil_of_all_space (trimRight_eq_nil_iff.mp h2)
      simp only [packFlush]
      rw [if_neg h1, if_pos h2, hall]
      rfl
    · simp [packFlush, h1, h2, stripSpaces_trimRight]

theorem packFlush_eq_nil_of_space {b : Str} (h : ∀ c ∈ b, isSpaceChar c) :
    packFlush b = [] := by
  simp only [packFlush]
  split
  · rfl
  · rw [if_pos (trimRight_eq_nil_iff.mpr h)]

theorem packLoop_flatten_sublist (adv : Char → Nat) (W : Int)
    (segs : List Str) :
    ∀ buf, List.Sublist (packLoop adv W buf segs).flatten
      (buf ++ segs.flatten) := by
  induction segs with
  | nil =>
    intro buf
    rw [packLoop_nil]
    exact List.nil_sublist _
  | cons seg rest ih =>
    intro buf
    cases rest with
    | nil =>
      rw [packLoop_single]
      by_cases hseg : seg = []
      · rw [if_pos hseg]
        exact List.nil_sublist _
      · rw [if_neg hseg]
        unfold packStep
        split
        · simp only [List.nil_append]
          have h := packFlush_flatten_sublist (buf ++ seg)
          simpa [List.append_assoc] using h
        · have h1 := packFlush_flatten_sublist buf
          have h2 : List.Sublist (packFlush (trimLeft seg)).flatten seg :=
            (packFlush_flatten_sublist (trimLeft seg)).trans
              (trimLeft_sublist seg)
          simpa using h1.append h2
    | cons r t =>
      rw [packLoop_cons_cons]
      by_cases hseg : seg = []
      · rw [if_pos hseg]
        subst hseg
        simpa using ih buf
      · rw [if_neg hseg]
        unfold packStep
        split
        · simp only [List.nil_append]
          have h := ih (buf ++ seg)
          simpa [List.append_assoc] using h
        · have h1 := packFlush_flatten_sublist buf
          have h2 := ih (trimLeft seg)
          have h3 : List.Sublist (trimLeft seg ++ (r :: t).flatten)
              (seg ++ (r :: t).flatten) :=
            (trimLeft_sublist seg).append (List.Sublist.refl _)
          have h4 := h2.trans h3
          have h5 := h1.append h4
          simpa [List.append_assoc] using h5

theorem packLoop_stripSpaces (adv : Char → Nat) (W : Int) (segs : List Str) :
    ∀ buf, segs ≠ [] → (∀ t ∈ segs, t ≠ []) →
      stripSpaces (packLoop adv W buf segs).flatten
        = stripSpaces (buf ++ segs.flatten) := by
  induction segs with
  | nil => intro buf h _; exact absurd rfl h
  | cons seg rest ih =>
    intro buf _ hne
    have hseg : seg ≠ [] := hne seg (List.mem_cons_self seg rest)
    cases rest with
    | nil =>
      rw [packLoop_single, if_neg hseg]
      unfold packStep
      split
      · simp only [List.nil_append]
        rw [stripSpaces_packFlush]
        simp [stripSpaces_append]
      · simp only [List.flatten_append]
        rw [stripSpaces_append, stripSpaces_packFlush, stripSpaces_packFlush,
          stripSpaces_trimLeft]
        simp [stripSpaces_append]
    | cons r t =>
      rw [packLoop_cons_cons, if_neg hseg]
      have hne' : ∀ u ∈ r :: t, u ≠ [] :=
        fun u hu => hne u (List.mem_cons_of_mem seg hu)
      unfold packStep
      split
      · simp only [List.nil_append]
        rw [ih (buf ++ seg) (List.cons_ne_nil r t) hne']
        simp [stripSpaces_append, List.append_assoc]
      · simp only [List.flatten_append]
        rw [stripSpaces_append, stripSpaces_packFlush,
          ih (trimLeft seg) (List.cons_ne_nil r t) hne',
          stripSpaces_append, stripSpaces_trimLeft]
        simp [stripSpaces_append, List.append_assoc]

theorem packLoop_width_aux (adv : Char → Nat) (W : Int) (segs : List Str) :
    ∀ buf L, L ∈ packLoop adv W buf segs →
      (measureString adv L : Int) ≤ 64 * W ∨ L = trimRight buf
        ∨ ∃ s ∈ segs, L = trimRight (trimLeft s)
            ∧ 64 * W < (measureString adv s : Int) := by
  induction segs with
  | nil =>
    intro buf L hL
    rw [packLoop_nil] at hL
    exact absurd hL (List.not_mem_nil L)
  | cons seg rest ih =>
    intro buf L hL
    cases rest with
    | nil =>
      rw [packLoop_single] at hL
      by_cases hseg : seg = []
      · rw [if_pos hseg] at hL
        exact absurd hL (List.not_mem_nil L)
      · rw [if_neg hseg] at hL
        unfold packStep at hL
        split at hL
        next hfits =>
          simp only [List.nil_append] at hL
          have hLeq := packFlush_mem hL
          left
          have hm : measureString adv L ≤ measureString adv (buf ++ seg) := by
            rw [hLeq]
            exact measureString_trimRight_le adv (buf ++ seg)
          omega
        next hover =>
          rcases List.mem_append.mp hL with h | h
          · right; left
            exact packFlush_mem h
          · have hLeq := packFlush_mem h
            by_cases hbig : 64 * W < (measureString adv seg : Int)
            · right; right
              exact ⟨seg, List.mem_cons_self seg [], hLeq, hbig⟩
            · left
              have hm : measureString adv L ≤ measureString adv seg := by
                rw [hLeq]
                exact Nat.le_trans
                  (measureString_trimRight_le adv (trimLeft seg))
                  (measureString_trimLeft_le adv seg)
              omega
    | cons r t =>
      rw [packLoop_cons_cons] at hL
      by_cases hseg : seg = []
      · rw [if_pos hseg] at hL
        rcases ih buf L hL with h | h | ⟨s, hs, h1, h2⟩
        · exact Or.inl h
        · exact Or.inr (Or.inl h)
        · exact Or.inr (Or.inr ⟨s, List.mem_cons_of_mem seg hs, h1, h2⟩)
      · rw [if_neg hseg] at hL
        unfold packStep at hL
        split at hL
        next hfits =>
          simp only [List.nil_append] at hL
          rcases ih (buf ++ seg) L hL with h | h | ⟨s, hs, h1, h2⟩
          · exact Or.inl h
          · left
            have hm : measureString adv L ≤ measureString adv (buf ++ seg) := by
              rw [h]
              exact measureString_trimRight_le adv (buf ++ seg)
            omega
          · exact Or.inr (Or.inr ⟨s, List.mem_cons_of_mem seg hs, h1, h2⟩)
        next hover =>
          rcases List.mem_append.mp hL with h | h
          · right; left
            exact packFlush_mem h
          · rcases ih (trimLeft seg) L h with h1 | h1 | ⟨s, hs, h1, h2⟩
            · exact Or.inl h1
            · by_cases hbig : 64 * W < (measureString adv seg : Int)
              · right; right
                exact ⟨seg, List.mem_cons_self seg (r :: t), h1, hbig⟩
              · left
                have hm : measureString adv L ≤ measureString adv seg := by
                  rw [h1]
                  exact Nat.le_trans
                    (measureString_trimRight_le adv (trimLeft seg))
                    (measureString_trimLeft_le adv seg)
                omega
            · exact Or.inr (Or.inr ⟨s, List.mem_cons_of_mem seg hs, h1, h2⟩)

theorem packLoop_all_space (adv : Char → Nat) (W : Int) (segs : List Str) :
    ∀ buf, (∀ c ∈ buf, isSpaceChar c) →
      (∀ s ∈ segs, ∀ c ∈ s, isSpaceChar c) →
      packLoop adv W buf segs = [] := by
  induction segs with
  | nil => intro buf _ _; exact packLoop_nil adv W buf
  | cons seg rest ih =>
    intro buf hbuf hsegs
    have hseg : ∀ c ∈ seg, isSpaceChar c :=
      hsegs seg (List.mem_cons_self seg rest)
    have hrest : ∀ s ∈ rest, ∀ c ∈ s, isSpaceChar c :=
      fun s hs => hsegs s (List.mem_cons_of_mem seg hs)
    have happ : ∀ c ∈ buf ++ seg, isSpaceChar c := by
      intro c hc
      rcases List.mem_append.mp hc with h | h
      · exact hbuf c h
      · exact hseg c h
    have htl : ∀ c ∈ trimLeft seg, isSpaceChar c :=
      fun c hc => hseg c ((trimLeft_sublist seg).mem hc)
    cases rest with
    | nil =>
      rw [packLoop_single]
      by_cases hs : seg = []
      · rw [if_pos hs]
      · rw [if_neg hs]
        unfold packStep
        split
        · simp [packFlush_eq_nil_of_space happ]
        · simp [packFlush_eq_nil_of_space hbuf,
            packFlush_eq_nil_of_space htl]
    | cons r t =>
      rw [packLoop_cons_cons]
      by_cases hs : seg = []
      · rw [if_pos hs]
        exact ih buf hbuf hrest
      · rw [if_neg hs]
        unfold packStep
        split
        · simp [ih (buf ++ seg) happ hrest]
        · simp [packFlush_eq_nil_of_space hbuf, ih (trimLeft seg) htl hrest]

theorem packLoop_stuck_mem (adv : Char → Nat) (W : Int) (rest : List Str)
    (buf : Str) (hne : rest ≠ []) (hall : ∀ u ∈ rest, u ≠ [])
    (hbig : 64 * W < (measureString adv buf : Int))
    (htr : trimRight buf ≠ []) :
    trimRight buf ∈ packLoop adv W buf rest := by
  cases rest with
  | nil => exact absurd rfl hne
  | cons r t =>
    have hr : r ≠ [] := hall r (List.mem_cons_self r t)
    have hbufne : buf ≠ [] := by
      intro h
      subst h
      exact htr rfl
    have hover : ¬((measureString adv (buf ++ r) : Int) ≤ 64 * W) := by
      rw [measureString_append]
      push_cast
      omega
    have hflush : packFlush buf = [trimRight buf] := by
      simp only [packFlush]
      rw [if_neg hbufne, if_neg htr]
    cases t with
    | nil =>
      rw [packLoop_single, if_neg hr]
      unfold packStep
      rw [if_neg hover, hflush]
      exact List.mem_append_left _ (List.mem_singleton.mpr rfl)
    | cons r2 t2 =>
      rw [packLoop_cons_cons, if_neg hr]
      unfold packStep
      rw [if_neg hover, hflush]
      exact List.mem_append_left _ (List.mem_singleton.mpr rfl)

theorem packLoop_overwide_mem (adv : Char → Nat) (W : Int) (segs : List Str) :
    ∀ buf, 0 < W → (∀ u ∈ segs, u ≠ []) →
      ∀ s ∈ segs, 64 * W < (measureString adv (trimLeft s) : Int) →
        trimRight (trimLeft s) ∈ packLoop adv W buf segs := by
  induction segs with
  | nil => intro buf _ _ s hs; exact absurd hs (List.not_mem_nil s)
  | cons seg rest ih =>
    intro buf hW hall s hs hbig
    have hseg : seg ≠ [] := hall seg (List.mem_cons_self seg rest)
    have hrest : ∀ u ∈ rest, u ≠ [] :=
      fun u hu => hall u (List.mem_cons_of_mem seg hu)
    rcases List.mem_cons.mp hs with rfl | hs'
    · have hmono : measureString adv (trimLeft s) ≤ measureString adv s :=
        measureString_trimLeft_le adv s
      have hover : ¬((measureString adv (buf ++ s) : Int) ≤ 64 * W) := by
        rw [measureString_append]
        push_cast
        omega
      have htlne : trimLeft s ≠ [] := by
        intro h
        rw [h] at hbig
        simp [measureString] at hbig
        omega
      have htrne : trimRight (trimLeft s) ≠ [] :=
        trimRight_trimLeft_ne_nil htlne
      have hflush : packFlush (trimLeft s) = [trimRight (trimLeft s)] := by
        simp only [packFlush]
        rw [if_neg htlne, if_neg htrne]
      cases rest with
      | nil =>
        rw [packLoop_single, if_neg hseg]
        unfold packStep
        rw [if_neg hover]
        exact List.mem_append_right _ (by rw [hflush]; exact List.mem_singleton.mpr rfl)
      | cons r t =>
        rw [packLoop_cons_cons, if_neg hseg]
        unfold packStep
        rw [if_neg hover]
        refine List.mem_append_right _ ?_
        exact packLoop_stuck_mem adv W (r :: t) (trimLeft s)
          (List.cons_ne_nil r t) hrest hbig htrne
    · cases rest with
      | nil => exact absurd hs' (List.not_mem_nil s)
      | cons r t =>
        rw [packLoop_cons_cons, if_neg hseg]
        unfold packStep
        split
        · exact List.mem_append_right _ (ih (buf ++ seg) hW hrest s hs' hbig)
        · exact List.mem_append_right _ (ih (trimLeft seg) hW hrest s hs' hbig)

/-! ## Segmenter glue lemmas -/

theorem segmentForLineBreaks_eq (parse : Str → List Str) (t : Str) :
    segmentForLineBreaks parse t
      = if t = [] then [] else (parse t).filter (fun s => !s.isEmpty) := rfl

theorem segmentForLineBreaks_flatten (parse : Str → List Str) (t : Str)
    (h : (parse t).flatten = t) :
    (segmentForLineBreaks parse t).flatten = t := by
  rw [segmentForLineBreaks_eq]
  by_cases ht : t = []
  · simp [ht]
  · rw [if_neg ht, List.flatten_filter_not_isEmpty, h]

theorem segmentForLineBreaks_ne_nil (parse : Str → List Str) (t : Str) :
    ∀ s ∈ segmentForLineBreaks parse t, s ≠ [] := by
  rw [segmentForLineBreaks_eq]
  by_cases ht : t = []
  · simp [ht]
  · rw [if_neg ht]
    intro s hs
    have := (List.mem_filter.mp hs).2
    simpa [List.isEmpty_iff] using this

theorem segmentForLineBreaks_all_space (parse : Str → List Str) (t : Str)
    (h : (parse t).flatten = t) (hsp : ∀ c ∈ t, isSpaceChar c) :
    ∀ s ∈ segmentForLineBreaks parse t, ∀ c ∈ s, isSpaceChar c := by
  intro s hs c hc
  apply hsp
  have hmem : c ∈ (segmentForLineBreaks parse t).flatten :=
    List.mem_flatten.mpr ⟨s, hs, hc⟩
  rwa [segmentForLineBreaks_flatten parse t h] at hmem

theorem drawMultiLine_textsOf (parse : Str → List Str) (c : Canvas)
    (t : Str) :
    textsOf (drawMultiLineTextWithBudoX parse c t).dst
      = textsOf c.dst
        ++ packLoop c.face.advance c.maxWidth []
          (segmentForLineBreaks parse t) :=
  dmlLoop_textsOf (segmentForLineBreaks parse t) c c.dotX []

/-! ## Box-chip layout lemmas -/

theorem fillRects_append (a b : List DrawCmd) :
    fillRects (a ++ b) = fillRects a ++ fillRects b := by
  simp [fillRects]

theorem boxLoop_fillRects (texts : List Str) :
    ∀ (c : Canvas) (pX sy y1 y2 : Int),
      fillRects (boxLoop c pX sy y1 y2 texts).dst
        = fillRects c.dst
          ++ rectsFrom c.face.advance c.boxPadding.left c.boxPadding.right
            c.boxSpace y1 y2 pX texts := by
  induction texts with
  | nil => intro c pX sy y1 y2; simp [boxLoop, rectsFrom]
  | cons s rest ih =>
    intro c pX sy y1 y2
    simp only [boxLoop, rectsFrom]
    rw [ih]
    simp [Canvas.drawString, fillRects_append, fillRects, List.append_assoc]

theorem rectsFrom_chain (adv : Char → Nat) (padL padR space y1 y2 : Int)
    (texts : List Str) :
    ∀ pX, List.Chain' (fun a b => b.minX = a.maxX + space)
      (rectsFrom adv padL padR space y1 y2 pX texts) := by
  induction texts with
  | nil => intro pX; simp [rectsFrom]
  | cons s rest ih =>
    intro pX
    cases rest with
    | nil => simp [rectsFrom]
    | cons r t =>
      simp only [rectsFrom]
      refine List.Chain'.cons ?_ ?_
      · rfl
      · exact ih _

theorem sum_map_add_const (K : Int) (f : Str → Int) (l : List Str) :
    (l.map fun s => f s + K).sum = (l.map f).sum + l.length * K := by
  induction l with
  | nil => simp
  | cons a rest ih =>
    simp only [List.map_cons, List.sum_cons, ih, List.length_cons]
    push_cast
    ring

theorem rectsFrom_getLast_maxX (adv : Char → Nat)
    (padL padR space y1 y2 : Int) (texts : List Str) :
    ∀ pX, texts ≠ [] →
      ∃ rl, (rectsFrom adv padL padR space y1 y2 pX texts).getLast? = some rl
        ∧ rl.maxX = pX
          + (texts.map fun s =>
              (roundFx (measureString adv s) : Int) + padL + padR + space).sum
          - space := by
  induction texts with
  | nil => intro pX h; exact absurd rfl h
  | cons s rest ih =>
    intro pX _
    cases rest with
    | nil =>
      simp only [rectsFrom]
      refine ⟨⟨pX, y1, pX + (roundFx (measureString adv s) : Int) + padL
        + padR, y2⟩, rfl, ?_⟩
      simp only [List.map_cons, List.map_nil, List.sum_cons, List.sum_nil]
      ring
    | cons r t =>
      rcases ih (pX + (roundFx (measureString adv s) : Int) + padL + padR
          + space) (List.cons_ne_nil r t) with ⟨rl, hlast, hmax⟩
      refine ⟨rl, ?_, ?_⟩
      · simp only [rectsFrom] at hlast ⊢
        rw [List.getLast?_cons_cons]
        exact hlast
      · rw [hmax]
        simp only [List.map_cons, List.sum_cons]
        ring

theorem sum_map_round_pads (adv : Char → Nat) (padL padR space : Int)
    (texts : List Str) :
    (texts.map fun s =>
        (roundFx (measureString adv s) : Int) + padL + padR + space).sum
      = (texts.map fun s => (roundFx (measureString adv s) : Int)).sum
        + texts.length * (padL + padR + space) := by
  induction texts with
  | nil => simp
  | cons a rest ih =>
    simp only [List.map_cons, List.sum_cons, ih, List.length_cons]
    push_cast
    ring

theorem sum_mod_64 (l : List Nat) (h : ∀ w ∈ l, w % 64 = 0) :
    l.sum % 64 = 0 := by
  induction l with
  | nil => rfl
  | cons a rest ih =>
    have ha := h a (List.mem_cons_self a rest)
    have hr := ih fun w hw => h w (List.mem_cons_of_mem a hw)
    simp only [List.sum_cons]
    omega

theorem roundFx_sum_eq (l : List Nat) (h : ∀ w ∈ l, w % 64 = 0) :
    roundFx l.sum = (l.map roundFx).sum := by
  induction l with
  | nil => rfl
  | cons a rest ih =>
    have ha := h a (List.mem_cons_self a rest)
    have hr : rest.sum % 64 = 0 :=
      sum_mod_64 rest fun w hw => h w (List.mem_cons_of_mem a hw)
    have ihr := ih fun w hw => h w (List.mem_cons_of_mem a hw)
    simp only [List.sum_cons, List.map_cons, ← ihr, roundFx]
    omega

/-! ## Option application lemmas -/

theorem applyOpt_dst (o : TextDrawOption) (c c' : Canvas)
    (h : applyOpt o c = Except.ok c') : c'.dst = c.dst := by
  cases o with
  | fontFace ff => simp only [applyOpt, Except.ok.injEq] at h; rw [← h]
  | fontFaceFromFFA res =>
    cases res with
    | ok ff => simp only [applyOpt, Except.ok.injEq] at h; rw [← h]
    | error e => simp [applyOpt] at h
  | fgColor color => simp only [applyOpt, Except.ok.injEq] at h; rw [← h]
  | bgColor color => simp only [applyOpt, Except.ok.injEq] at h; rw [← h]
  | fgHexColor res =>
    cases res with
    | ok color => simp only [applyOpt, Except.ok.injEq] at h; rw [← h]
    | error e => simp [applyOpt] at h
  | bgHexColor res =>
    cases res with
    | ok color => simp only [applyOpt, Except.ok.injEq] at h; rw [← h]
    | error e => simp [applyOpt] at h
  | maxWidth m => simp only [applyOpt, Except.ok.injEq] at h; rw [← h]
  | lineSpacing px => simp only [applyOpt, Except.ok.injEq] at h; rw [← h]
  | boxPadding bp => simp only [applyOpt, Except.ok.injEq] at h; rw [← h]
  | boxSpacing px => simp only [applyOpt, Except.ok.injEq] at h; rw [← h]
  | boxAlign align => simp only [applyOpt, Except.ok.injEq] at h; rw [← h]

theorem applyOpts_dst (opts : List TextDrawOption) :
    ∀ c : Canvas, ((applyOpts opts c).1).dst = c.dst := by
  induction opts with
  | nil => intro c; rfl
  | cons o os ih =>
    intro c
    simp only [applyOpts]
    cases ho : applyOpt o c with
    | ok c' => exact Eq.trans (ih c') (applyOpt_dst o c c' ho)
    | error e => rfl

theorem applyOpts_append_error (pre : List TextDrawOption) :
    ∀ (c c1 : Canvas) (o : TextDrawOption) (rest : List TextDrawOption)
      (e : Err),
      applyOpts pre c = (c1, none) → applyOpt o c1 = Except.error e →
      applyOpts (pre ++ o :: rest) c = (c1, some e) := by
  induction pre with
  | nil =>
    intro c c1 o rest e h1 h2
    have hc : c = c1 := congrArg Prod.fst h1
    subst hc
    simp only [List.nil_append, applyOpts, h2]
  | cons p ps ih =>
    intro c c1 o rest e h1 h2
    simp only [List.cons_append, applyOpts] at h1 ⊢
    cases hp : applyOpt p c with
    | ok c' =>
      rw [hp] at h1
      exact ih c' c1 o rest e h1 h2
    | error e' =>
      rw [hp] at h1
      exact absurd (congrArg Prod.snd h1) (by simp)

theorem drawTextAtPoint_error (parse : Str → List Str) (c c1 : Canvas)
    (text : Str) (start : Point) (opts : List TextDrawOption) (e : Err)
    (h : applyOpts opts c = (c1, some e)) :
    drawTextAtPoint parse c text start opts = (c1, some e) := by
  unfold drawTextAtPoint
  rw [h]

theorem drawBoxTexts_error (c c1 : Canvas) (texts : List Str) (start : Point)
    (opts : List TextDrawOption) (e : Err)
    (h : applyOpts opts c = (c1, some e)) :
    drawBoxTexts c texts start opts = (c1, some e) := by
  unfold drawBoxTexts
  rw [h]

/-! ## Concrete fixtures used by witnesses and counterexamples -/

/-- Face with every rune one pixel wide (64 fixed units). -/
def face64 : FaceM := ⟨640, 128, fun _ => 64⟩

/-- Face with every rune five pixels wide (320 fixed units). -/
def face320 : FaceM := ⟨640, 128, fun _ => 320⟩

/-- Face with every rune half a pixel wide (32 fixed units). -/
def face32 : FaceM := ⟨640, 128, fun _ => 32⟩

/-- Canvas fresh from CreateCanvasFromImage with zeroed style state. -/
def baseCanvas : Canvas :=
  { dst := []
    face := face64
    src := 0
    dotX := 0
    dotY := 0
    bgColor := 0
    maxWidth := 0
    lineSpace := 0
    boxPadding := ⟨0, 0, 0, 0⟩
    boxSpace := 4
    boxAlign := BoxAlign.left }

/-- Canvas configured as in the spec box-layout example: padding (2,2,2,2),
spacing 4, left alignment, every rune measuring 5px. -/
def chipCanvas : Canvas :=
  { baseCanvas with
    face := face320
    bgColor := 7
    boxPadding := ⟨2, 2, 2, 2⟩
    boxSpace := 4
    boxAlign := BoxAlign.left }

/-- Right-aligned canvas over a half-pixel-advance face, no padding and no
spacing. -/
def halfPxCanvas : Canvas :=
  { baseCanvas with
    face := face32
    boxPadding := ⟨0, 0, 0, 0⟩
    boxSpace := 0
    boxAlign := BoxAlign.right }

/-! ## Claim theorems -/

/-- C2: for every sequence of (never-empty, per the data model) segments and
every max width W > 0, every line the packer emits measures at most W
pixels, except that a line may be the both-sides-trimmed copy of a single
segment whose own measured width exceeds W; moreover such an over-wide
segment (still over-wide after left-trimming) is emitted alone as its own
line, so it is neither dropped nor looped on. -/
theorem packer_width_invariant (adv : Char → Nat) (W : Int) (segs : List Str)
    (hW : 0 < W) (hne : ∀ t ∈ segs, t ≠ []) :
    (∀ L ∈ packLoop adv W [] segs,
      (measureString adv L : Int) ≤ 64 * W
        ∨ ∃ s ∈ segs, L = trimRight (trimLeft s)
            ∧ 64 * W < (measureString adv s : Int))
    ∧ (∀ s ∈ segs, 64 * W < (measureString adv (trimLeft s) : Int) →
        trimRight (trimLeft s) ∈ packLoop adv W [] segs) := by
  constructor
  · intro L hL
    rcases packLoop_width_aux adv W segs [] L hL with h | h | h
    · exact Or.inl h
    · left
      rw [h]
      have htr : trimRight ([] : Str) = [] := by simp [trimRight]
      rw [htr]
      have : measureString adv [] = 0 := rfl
      rw [this]
      omega
    · exact Or.inr h
  · intro s hs hbig
    exact packLoop_overwide_mem adv W segs [] hW hne s hs hbig

/-- C2 witness: at W = 1 and segments [\"ab\", \"c\"] over a one-pixel face,
the over-wide segment \"ab\" is emitted alone and every emitted line
satisfies the invariant. -/
theorem packer_width_invariant_witness :
    (0 : Int) < 1
    ∧ (∀ t ∈ [['a', 'b'], ['c']], t ≠ [])
    ∧ ((∀ L ∈ packLoop (fun _ => 64) 1 [] [['a', 'b'], ['c']],
        (measureString (fun _ => 64) L : Int) ≤ 64 * 1
          ∨ ∃ s ∈ [['a', 'b'], ['c']], L = trimRight (trimLeft s)
              ∧ 64 * 1 < (measureString (fun _ => 64) s : Int))
      ∧ (∀ s ∈ [['a', 'b'], ['c']],
          64 * 1 < (measureString (fun _ => 64) (trimLeft s) : Int) →
          trimRight (trimLeft s) ∈ packLoop (fun _ => 64) 1 [] [['a', 'b'], ['c']])) :=
  ⟨by decide, by decide,
    packer_width_invariant (fun _ => 64) 1 [['a', 'b'], ['c']]
      (by decide) (by decide)⟩

/-- C3: for every text T and W > 0, with the BudoX tokenizer assumed to
split T without altering characters, the concatenation of all emitted lines
is a subsequence of T (no character duplicated or reordered) and drops only
whitespace (every non-space rune of T is preserved). -/
theorem packer_reconstructs_input (parse : Str → List Str) (adv : Char → Nat)
    (W : Int) (T : Str) (_hW : 0 < W) (hparse : (parse T).flatten = T) :
    List.Sublist (packLoop adv W [] (segmentForLineBreaks parse T)).flatten T
    ∧ stripSpaces (packLoop adv W [] (segmentForLineBreaks parse T)).flatten
        = stripSpaces T := by
  have hflat := segmentForLineBreaks_flatten parse T hparse
  constructor
  · have h := packLoop_flatten_sublist adv W (segmentForLineBreaks parse T) []
    rwa [List.nil_append, hflat] at h
  · by_cases hsegs : segmentForLineBreaks parse T = []
    · rw [hsegs, packLoop_nil]
      have hT : T = [] := by
        rw [← hflat, hsegs]
        rfl
      rw [hT]
      rfl
    · have h := packLoop_stripSpaces adv W (segmentForLineBreaks parse T) []
        hsegs (segmentForLineBreaks_ne_nil parse T)
      rwa [List.nil_append, hflat] at h

/-- C3 witness: the packer applied to \"ab cd\" under a one-segment
tokenizer at W = 1 reconstructs the input up to boundary whitespace. -/
theorem packer_reconstructs_input_witness :
    (0 : Int) < 1
    ∧ ((fun t => [t]) ['a', 'b']).flatten = ['a', 'b']
    ∧ (List.Sublist
        (packLoop (fun _ => 64) 1 []
          (segmentForLineBreaks (fun t => [t]) ['a', 'b'])).flatten
        ['a', 'b']
      ∧ stripSpaces
          (packLoop (fun _ => 64) 1 []
            (segmentForLineBreaks (fun t => [t]) ['a', 'b'])).flatten
          = stripSpaces ['a', 'b']) :=
  ⟨by decide, by decide,
    packer_reconstructs_input (fun t => [t]) (fun _ => 64) 1 ['a', 'b']
      (by decide) (by decide)⟩

/-- C8: segmentation is total: the empty string yields no segments, every
produced segment of any string is non-empty, and on an empty or
whitespace-only input (with the tokenizer splitting without altering
characters) the multi-line drawing path paints no line at all. -/
theorem segmentation_total_no_blank_lines (parse : Str → List Str)
    (c : Canvas) (T : Str) :
    segmentForLineBreaks parse [] = []
    ∧ (∀ s ∈ segmentForLineBreaks parse T, s ≠ [])
    ∧ ((parse T).flatten = T → (∀ ch ∈ T, isSpaceChar ch) →
        textsOf (drawMultiLineTextWithBudoX parse c T).dst = textsOf c.dst) := by
  refine ⟨rfl, segmentForLineBreaks_ne_nil parse T, ?_⟩
  intro hp hsp
  rw [drawMultiLine_textsOf,
    packLoop_all_space c.face.advance c.maxWidth
      (segmentForLineBreaks parse T) [] (by simp)
      (segmentForLineBreaks_all_space parse T hp hsp),
    List.append_nil]

/-- C8 witness: on the whitespace-only input \" \" the drawing path of the
fresh canvas paints nothing. -/
theorem segmentation_total_no_blank_lines_witness :
    segmentForLineBreaks (fun t => [t]) [] = []
    ∧ (∀ s ∈ segmentForLineBreaks (fun t => [t]) [' '], s ≠ [])
    ∧ (((fun t => [t]) [' ']).flatten = [' ']
        ∧ (∀ ch ∈ [' '], isSpaceChar ch)
        ∧ textsOf (drawMultiLineTextWithBudoX (fun t => [t]) baseCanvas
            [' ']).dst = textsOf baseCanvas.dst) := by
  have h := segmentation_total_no_blank_lines (fun t => [t]) baseCanvas [' ']
  exact ⟨h.1, h.2.1, by decide, by decide, h.2.2 (by decide) (by decide)⟩

/-- C4 counterexample: on the empty segment the fine-granularity pass keeps
one (empty) sub-segment while ceil(0 / 6) = 0, so the claimed count fails for
rune length L = 0. -/
theorem granularity_empty_segment_cex :
    applyFineSegmentation [([] : Str)] = [[]]
    ∧ applyUltraFineSegmentation [([] : Str)] = [[]]
    ∧ (applyFineSegmentation [([] : Str)]).length
        ≠ (([] : Str).length + 6 - 1) / 6
    ∧ (applyUltraFineSegmentation [([] : Str)]).length
        ≠ (([] : Str).length + 3 - 1) / 3 := by
  refine ⟨rfl, rfl, by decide, by decide⟩

/-- C4 (amended to non-empty segments, the only segments the segmenter ever
produces): the fine pass (threshold 6) and the ultra-fine pass (threshold 3)
replace a non-empty segment of rune length L by ceil(L / threshold)
sub-segments whose in-order concatenation is exactly the original segment
(no rune lost, reordered, or split), each of rune length at most the
threshold, and with every sub-segment except possibly the last of rune
length exactly the threshold. -/
theorem granularity_chunking (s : Str) (hs : s ≠ []) :
    ((applyFineSegmentation [s]).length = (s.length + 6 - 1) / 6
      ∧ (applyFineSegmentation [s]).flatten = s
      ∧ (∀ ch ∈ applyFineSegmentation [s], ch.length ≤ 6)
      ∧ (∀ ch ∈ (applyFineSegmentation [s]).dropLast, ch.length = 6))
    ∧ ((applyUltraFineSegmentation [s]).length = (s.length + 3 - 1) / 3
      ∧ (applyUltraFineSegmentation [s]).flatten = s
      ∧ (∀ ch ∈ applyUltraFineSegmentation [s], ch.length ≤ 3)
      ∧ (∀ ch ∈ (applyUltraFineSegmentation [s]).dropLast, ch.length = 3)) := by
  constructor
  · rw [applyFineSegmentation_singleton]
    exact granularity_chunk_facts s 6 (by decide) hs
  · rw [applyUltraFineSegmentation_singleton]
    exact granularity_chunk_facts s 3 (by decide) hs

/-- C4 witness: an eight-rune segment splits into ceil(8/6) = 2 chunks under
the fine pass and ceil(8/3) = 3 chunks under the ultra-fine pass, each fact
following from the claim theorem. -/
theorem granularity_chunking_witness :
    (['a', 'b', 'c', 'd', 'e', 'f', 'g', 'h'] : Str) ≠ []
    ∧ (applyFineSegmentation [['a', 'b', 'c', 'd', 'e', 'f', 'g', 'h']]).length
        = 2
    ∧ (applyUltraFineSegmentation
        [['a', 'b', 'c', 'd', 'e', 'f', 'g', 'h']]).length = 3 := by
  have h := granularity_chunking ['a', 'b', 'c', 'd', 'e', 'f', 'g', 'h']
    (by decide)
  exact ⟨by decide, h.1.1, h.2.1⟩

/-- C5: when applying the configuration options fails, both DrawTextAtPoint
and DrawBoxTexts return that first error before any drawing: the command
trace against the pixel buffer is exactly what it was before the call. -/
theorem option_failure_aborts_before_paint (parse : Str → List Str)
    (c c1 : Canvas) (text : Str) (texts : List Str) (start : Point)
    (opts : List TextDrawOption) (e : Err)
    (h : applyOpts opts c = (c1, some e)) :
    drawTextAtPoint parse c text start opts = (c1, some e)
    ∧ drawBoxTexts c texts start opts = (c1, some e)
    ∧ c1.dst = c.dst := by
  refine ⟨drawTextAtPoint_error parse c c1 text start opts e h,
    drawBoxTexts_error c c1 texts start opts e h, ?_⟩
  have hd := applyOpts_dst opts c
  rw [h] at hd
  exact hd

/-- C5 witness: a failing hex-color option aborts both draw calls on the
fresh canvas and leaves its pixel trace untouched. -/
theorem option_failure_aborts_before_paint_witness :
    applyOpts [TextDrawOption.fgHexColor (Except.error "bad")] baseCanvas
      = (baseCanvas, some "bad")
    ∧ (drawTextAtPoint (fun t => [t]) baseCanvas ['a'] ⟨0, 0⟩
        [TextDrawOption.fgHexColor (Except.error "bad")]
        = (baseCanvas, some "bad")
      ∧ drawBoxTexts baseCanvas [['a']] ⟨0, 0⟩
          [TextDrawOption.fgHexColor (Except.error "bad")]
          = (baseCanvas, some "bad")
      ∧ baseCanvas.dst = baseCanvas.dst) :=
  ⟨rfl, option_failure_aborts_before_paint (fun t => [t]) baseCanvas
    baseCanvas ['a'] [['a']] ⟨0, 0⟩
    [TextDrawOption.fgHexColor (Except.error "bad")] "bad" rfl⟩

/-- C7: when the options applied by DrawTextAtPoint leave maxWidth = 0, the
call never reaches the segmenter or the packer (the result does not depend
on the tokenizer at all) and paints the whole string as a single run with
the dot at x = 64 * start.x, baseline 64 * start.y plus the face line
height. -/
theorem draw_text_unwrapped_when_no_max_width (parse parse2 : Str → List Str)
    (c c1 : Canvas) (text : Str) (start : Point)
    (opts : List TextDrawOption)
    (hopts : applyOpts opts c = (c1, none)) (hmw : c1.maxWidth = 0) :
    drawTextAtPoint parse c text start opts
      = ({ c1 with
            dst := c1.dst ++ [DrawCmd.text text (64 * start.x)
              (64 * start.y + (c1.face.height : Int))]
            dotX := 64 * start.x + (measureString c1.face.advance text : Int)
            dotY := 64 * start.y + (c1.face.height : Int) }, none)
    ∧ drawTextAtPoint parse c text start opts
        = drawTextAtPoint parse2 c text start opts := by
  have h1 : ∀ pr : Str → List Str,
      drawTextAtPoint pr c text start opts
        = ({ c1 with
              dst := c1.dst ++ [DrawCmd.text text (64 * start.x)
                (64 * start.y + (c1.face.height : Int))]
              dotX := 64 * start.x
                + (measureString c1.face.advance text : Int)
              dotY := 64 * start.y + (c1.face.height : Int) }, none) := by
    intro pr
    unfold drawTextAtPoint
    rw [hopts]
    simp only [Canvas.drawString]
    rw [if_pos hmw]
  exact ⟨h1 parse, (h1 parse).trans (h1 parse2).symm⟩

/-- C7 witness: on the fresh canvas (maxWidth 0) with no options, the call
paints one run of the whole string at the start point. -/
theorem draw_text_unwrapped_when_no_max_width_witness :
    applyOpts [] baseCanvas = (baseCanvas, none)
    ∧ baseCanvas.maxWidth = 0
    ∧ drawTextAtPoint (fun t => [t]) baseCanvas ['a', 'b'] ⟨3, 5⟩ []
        = ({ baseCanvas with
              dst := baseCanvas.dst ++ [DrawCmd.text ['a', 'b'] (64 * 3)
                (64 * 5 + (baseCanvas.face.height : Int))]
              dotX := 64 * 3
                + (measureString baseCanvas.face.advance ['a', 'b'] : Int)
              dotY := 64 * 5 + (baseCanvas.face.height : Int) }, none)
    ∧ drawTextAtPoint (fun t => [t]) baseCanvas ['a', 'b'] ⟨3, 5⟩ []
        = drawTextAtPoint (fun t => t.map (fun ch => [ch])) baseCanvas
            ['a', 'b'] ⟨3, 5⟩ [] :=
  ⟨rfl, rfl,
    (draw_text_unwrapped_when_no_max_width (fun t => [t])
      (fun t => t.map (fun ch => [ch])) baseCanvas baseCanvas ['a', 'b']
      ⟨3, 5⟩ [] rfl rfl).1,
    (draw_text_unwrapped_when_no_max_width (fun t => [t])
      (fun t => t.map (fun ch => [ch])) baseCanvas baseCanvas ['a', 'b']
      ⟨3, 5⟩ [] rfl rfl).2⟩

/-- C10: when an option fails, the style mutations of the options already
applied persist in the returned canvas (they are not rolled back): the call
returns exactly the canvas produced by the prefix of successful options,
whose pixel trace is still the original one. -/
theorem option_failure_keeps_prior_mutations (parse : Str → List Str)
    (c c1 : Canvas) (text : Str) (texts : List Str) (start : Point)
    (pre : List TextDrawOption) (o : TextDrawOption)
    (rest : List TextDrawOption) (e : Err)
    (hpre : applyOpts pre c = (c1, none))
    (hfail : applyOpt o c1 = Except.error e) :
    drawTextAtPoint parse c text start (pre ++ o :: rest) = (c1, some e)
    ∧ drawBoxTexts c texts start (pre ++ o :: rest) = (c1, some e)
    ∧ c1.dst = c.dst := by
  have h := applyOpts_append_error pre c c1 o rest e hpre hfail
  refine ⟨drawTextAtPoint_error parse c c1 text start _ e h,
    drawBoxTexts_error c c1 texts start _ e h, ?_⟩
  have hd := applyOpts_dst pre c
  rw [hpre] at hd
  exact hd

/-- C10 witness: maxWidth 42 set before a failing hex color persists in the
canvas returned by the failing call, with the pixel trace untouched. -/
theorem option_failure_keeps_prior_mutations_witness :
    applyOpts [TextDrawOption.maxWidth 42] baseCanvas
      = ({ baseCanvas with maxWidth := 42 }, none)
    ∧ applyOpt (TextDrawOption.fgHexColor (Except.error "bad"))
        { baseCanvas with maxWidth := 42 } = Except.error "bad"
    ∧ (drawTextAtPoint (fun t => [t]) baseCanvas ['a'] ⟨0, 0⟩
          ([TextDrawOption.maxWidth 42]
            ++ TextDrawOption.fgHexColor (Except.error "bad")
              :: [TextDrawOption.lineSpacing 9])
          = ({ baseCanvas with maxWidth := 42 }, some "bad")
      ∧ drawBoxTexts baseCanvas [['a']] ⟨0, 0⟩
          ([TextDrawOption.maxWidth 42]
            ++ TextDrawOption.fgHexColor (Except.error "bad")
              :: [TextDrawOption.lineSpacing 9])
          = ({ baseCanvas with maxWidth := 42 }, some "bad")
      ∧ ({ baseCanvas with maxWidth := 42 }).dst = baseCanvas.dst)
    ∧ ({ baseCanvas with maxWidth := 42 }).maxWidth = 42 :=
  ⟨rfl, rfl,
    option_failure_keeps_prior_mutations (fun t => [t]) baseCanvas
      { baseCanvas with maxWidth := 42 } ['a'] [['a']] ⟨0, 0⟩
      [TextDrawOption.maxWidth 42]
      (TextDrawOption.fgHexColor (Except.error "bad"))
      [TextDrawOption.lineSpacing 9] "bad" rfl rfl,
    rfl⟩

theorem intCast_sum_map {α : Type} (f : α → Nat) (l : List α) :
    (((l.map f).sum : Nat) : Int) = (l.map fun t => ((f t : Nat) : Int)).sum := by
  induction l with
  | nil => rfl
  | cons a r ih =>
    simp only [List.map_cons, List.sum_cons, Nat.cast_add, ih]

/-- Right-aligned canvas with the fresh style state of baseCanvas. -/
def rightCanvas : Canvas := { baseCanvas with boxAlign := BoxAlign.right }

/-- C1 counterexample: two half-pixel-wide chips right-anchored at x = 100
end with the last chip right edge at 101, not 100: the code pre-shifts by
the rounded measure of the concatenation (Round(0.5 + 0.5) = 1) while the
chips advance by individually rounded widths (1 + 1). -/
theorem drawBoxTexts_right_edge_cex :
    halfPxCanvas.boxAlign = BoxAlign.right
    ∧ (fillRects (drawBoxTextsCore halfPxCanvas [['a'], ['b']]
        ⟨100, 0⟩).dst).getLast? = some ⟨100, 0, 101, 12⟩
    ∧ ((100 : Int) + 1 ≠ 100) := by
  refine ⟨rfl, by decide, by decide⟩

/-- C1 (amended): under right alignment the start x is pre-shifted by the
paddings, the spacing, and the rounded measured width of the concatenation
of all texts, so the last chip right edge lands at startPoint.x plus the
rounding discrepancy (sum of individually rounded chip widths minus the
rounded total width); in particular it equals startPoint.x exactly whenever
every chip measures a whole number of pixels. -/
theorem drawBoxTexts_right_edge (c : Canvas) (texts : List Str)
    (start : Point) (hAlign : c.boxAlign = BoxAlign.right)
    (hne : texts ≠ []) (hdst : c.dst = []) :
    ∃ r : Rect,
      (fillRects (drawBoxTextsCore c texts start).dst).getLast? = some r
      ∧ r.maxX = start.x
          + ((texts.map fun t =>
              (roundFx (measureString c.face.advance t) : Int)).sum
            - (roundFx (measureString c.face.advance texts.flatten) : Int))
      ∧ ((∀ t ∈ texts, measureString c.face.advance t % 64 = 0) →
          r.maxX = start.x) := by
  simp only [drawBoxTextsCore]
  rw [hAlign, if_pos rfl, boxLoop_fillRects, hdst]
  simp only [fillRects, List.filterMap_nil, List.nil_append]
  obtain ⟨rl, hlast, hmax⟩ := rectsFrom_getLast_maxX c.face.advance
    c.boxPadding.left c.boxPadding.right c.boxSpace
    (min start.y (start.y + (roundFx c.face.height : Int) + c.boxPadding.top
      + c.boxPadding.bottom + (roundFx c.face.descent : Int)))
    (max start.y (start.y + (roundFx c.face.height : Int) + c.boxPadding.top
      + c.boxPadding.bottom + (roundFx c.face.descent : Int)))
    texts
    (start.x - (c.boxPadding.left * (texts.length : Int)
      + c.boxPadding.right * (texts.length : Int)
      + c.boxSpace * ((texts.length : Int) - 1)
      + (roundFx (measureString c.face.advance texts.flatten) : Int)))
    hne
  have hA : rl.maxX = start.x
      + ((texts.map fun t =>
          (roundFx (measureString c.face.advance t) : Int)).sum
        - (roundFx (measureString c.face.advance texts.flatten) : Int)) := by
    rw [hmax, sum_map_round_pads]
    ring
  refine ⟨rl, hlast, hA, ?_⟩
  intro hmod
  have hmod' : ∀ w ∈ texts.map (measureString c.face.advance), w % 64 = 0 := by
    intro w hw
    rcases List.mem_map.mp hw with ⟨t, ht, rfl⟩
    exact hmod t ht
  have hB : (roundFx (measureString c.face.advance texts.flatten) : Int)
      = (texts.map fun t =>
          (roundFx (measureString c.face.advance t) : Int)).sum := by
    rw [measureString_flatten, roundFx_sum_eq _ hmod', intCast_sum_map,
      List.map_map]
    rfl
  rw [hA, hB]
  ring

/-- C1 witness: two one-pixel-wide chips right-anchored at x = 100 on a
whole-pixel face end exactly at 100. -/
theorem drawBoxTexts_right_edge_witness :
    rightCanvas.boxAlign = BoxAlign.right
    ∧ ([['a'], ['b']] : List Str) ≠ []
    ∧ rightCanvas.dst = []
    ∧ ∃ r : Rect,
        (fillRects (drawBoxTextsCore rightCanvas [['a'], ['b']]
          ⟨100, 0⟩).dst).getLast? = some r
        ∧ r.maxX = 100 := by
  refine ⟨rfl, by decide, rfl, ?_⟩
  rcases drawBoxTexts_right_edge rightCanvas [['a'], ['b']] ⟨100, 0⟩ rfl
    (by decide) rfl with ⟨r, h1, _, h3⟩
  exact ⟨r, h1, h3 (by decide)⟩

/-- C6: the spec box-layout example is exact: chips of padded widths 9, 14
and 9 at left edges 10, 23 and 41, pairwise non-overlapping; and in general
under left alignment every chip left edge equals the previous chip right
edge plus the box spacing. -/
theorem box_layout_left_alignment :
    ((fillRects (drawBoxTextsCore chipCanvas [['A'], ['B', 'B'], ['C']]
        ⟨10, 10⟩).dst).map (fun r => r.maxX - r.minX) = [9, 14, 9]
      ∧ (fillRects (drawBoxTextsCore chipCanvas [['A'], ['B', 'B'], ['C']]
          ⟨10, 10⟩).dst).map Rect.minX = [10, 23, 41]
      ∧ List.Pairwise (fun a b => a.overlaps b = false ∧ b.overlaps a = false)
          (fillRects (drawBoxTextsCore chipCanvas [['A'], ['B', 'B'], ['C']]
            ⟨10, 10⟩).dst))
    ∧ ∀ (c : Canvas) (texts : List Str) (start : Point),
        c.boxAlign = BoxAlign.left → c.dst = [] →
        List.Chain' (fun a b => b.minX = a.maxX + c.boxSpace)
          (fillRects (drawBoxTextsCore c texts start).dst) := by
  constructor
  · exact ⟨by decide, by decide, by decide⟩
  · intro c texts start hAlign hdst
    simp only [drawBoxTextsCore]
    rw [hAlign, if_neg (by decide : ¬(BoxAlign.left = BoxAlign.right)),
      boxLoop_fillRects, hdst]
    simp only [fillRects, List.filterMap_nil, List.nil_append]
    exact rectsFrom_chain c.face.advance c.boxPadding.left
      c.boxPadding.right c.boxSpace _ _ texts start.x

/-- C6 witness: the general adjacency instantiated on the example layout. -/
theorem box_layout_left_alignment_witness :
    chipCanvas.boxAlign = BoxAlign.left
    ∧ chipCanvas.dst = []
    ∧ List.Chain' (fun a b => b.minX = a.maxX + chipCanvas.boxSpace)
        (fillRects (drawBoxTextsCore chipCanvas [['A'], ['B', 'B'], ['C']]
          ⟨10, 10⟩).dst) :=
  ⟨rfl, rfl,
    box_layout_left_alignment.2 chipCanvas [['A'], ['B', 'B'], ['C']]
      ⟨10, 10⟩ rfl rfl⟩

/-- C9 counterexample: an input with none of the date keys (an empty
front-matter map) makes parseFrontMatter fail with a missing-title error,
so the claim does not hold for every input without date keys. -/
theorem frontmatter_missing_title_cex :
    fmLookup [] "date" = none
    ∧ fmLookup [] "lastmod" = none
    ∧ fmLookup [] "publishDate" = none
    ∧ parseFrontMatter (fun _ => 1) (fun _ => none) [] 0
        = Except.error (FMErr.notExist "title") :=
  ⟨rfl, rfl, rfl, rfl⟩

/-- C9 (amended): for every front-matter input whose title, authors,
categories and tags fields parse successfully and in which none of the keys
date, lastmod and publishDate is present, parsing does not fail: it returns
a record whose Date is the supplied current time and writes exactly one
warning naming the three keys. -/
theorem frontmatter_date_defaults_to_now (rw : Char → Nat)
    (parseTimeFmt : String → Option Nat) (cfm : CFM) (currentTime : Nat)
    (ti au ca : String) (ta : List String)
    (hd1 : fmLookup cfm "date" = none)
    (hd2 : fmLookup cfm "lastmod" = none)
    (hd3 : fmLookup cfm "publishDate" = none)
    (hti : getString rw cfm "title" = Except.ok ti)
    (hau : (if isArray cfm "authors" then getAuthorsString cfm "authors"
            else getString rw cfm "authors") = Except.ok au)
    (hca : getConcatenatedStringItem cfm "categories" 2 = Except.ok ca)
    (hta : getTags cfm "tags" = Except.ok ta) :
    parseFrontMatter rw parseTimeFmt cfm currentTime
      = Except.ok (⟨ti, au, ca, ta, currentTime⟩,
          [FMErr.notExist "date, lastmod, publishDate"]) := by
  have hdate : getContentDate parseTimeFmt cfm currentTime
      = (currentTime,
          some (FMErr.notExist "date, lastmod, publishDate")) := by
    simp only [getContentDate, getContentDateLoop, getTime, hd1, hd2, hd3]
  unfold parseFrontMatter
  rw [hti, hau, hca, hta, hdate]

/-- C9 witness: a front matter with title, authors, categories and tags but
no date keys parses to a record dated at the current time 5 with the
warning. -/
theorem frontmatter_date_defaults_to_now_witness :
    fmLookup [("title", FMVal.str "T"), ("authors", FMVal.str "A"),
        ("categories", FMVal.arr [FMVal.str "c"]),
        ("tags", FMVal.arr [FMVal.str "t"])] "date" = none
    ∧ parseFrontMatter (fun _ => 1) (fun _ => none)
        [("title", FMVal.str "T"), ("authors", FMVal.str "A"),
          ("categories", FMVal.arr [FMVal.str "c"]),
          ("tags", FMVal.arr [FMVal.str "t"])] 5
        = Except.ok (⟨"T", "A", "c", ["t"], 5⟩,
            [FMErr.notExist "date, lastmod, publishDate"]) :=
  ⟨rfl,
    frontmatter_date_defaults_to_now (fun _ => 1) (fun _ => none)
      [("title", FMVal.str "T"), ("authors", FMVal.str "A"),
        ("categories", FMVal.arr [FMVal.str "c"]),
        ("tags", FMVal.arr [FMVal.str "t"])] 5 "T" "A" "c" ["t"]
      rfl rfl rfl rfl rfl rfl rfl⟩
